import Mathlib

/-!
# A verification development for the `imgtools` duplicate-image remover

Shallow embedding of the algorithmic core of the repository:

* `utils.py` — the d-hash fingerprint (`dhash`, with numpy's `packbits`)
  and the structural-similarity scorer (`ssim`), over oracles for the
  external image primitives (decode, grayscale resize, box blur);
* `rm_dup.py` — record loading (`load_img`), hash bucketing
  (`group_by_hash`), the pairwise deduplication scan (`get_dup`), the
  worker-count clamp and pool construction of `main`, and `main`'s
  deletion loop.

Machine floats are modelled by exact rationals; image decoding, resizing
and filtering are oracle parameters, since they live in PIL/numpy, outside
the repository.  Instrumented (`…T`) variants of the deduplication scan
additionally return the list of similarity comparisons actually performed;
they are proved to compute the same duplicate map as the plain versions.
-/

namespace Imgtools

/-! ## Constants (`utils.py`, `rm_dup.py`) -/

/-- Constant `SSIM_SIZE: Final = (64, 64)` — the square canvas side used by `ssim`. -/
def SSIM_SIZE : Nat := 64

/-- Constant `K1: Final = 0.01`. -/
def K1 : ℚ := 1 / 100

/-- Constant `K2: Final = 0.03`. -/
def K2 : ℚ := 3 / 100

/-- Constant `WIN_SIZE: Final = 7` — side length of the sliding comparison window. -/
def WIN_SIZE : Nat := 7

/-- Constant `SSIM_THRESH: Final = 0.9` — SSIM threshold for marking as duplicate. -/
def SSIM_THRESH : ℚ := 9 / 10

/-- Constant `PROC_LIMIT: Final = 8` — upper limit on number of processes (`rm_dup.py`). -/
def PROC_LIMIT : Int := 8

/-- Constant `HASH_BITS: Final = 16` — bits for the image hash (`rm_dup.py`). -/
def HASH_BITS : Nat := 16

/-! ## `dhash` (`utils.py`)

The resized grayscale image is an oracle `resized : Nat → Nat → Nat → Nat`:
`resized width r c` is the intensity at row `r`, column `c` of
`np.array(pillow.convert("L").resize((width + 1, width), Image.BICUBIC))`.
`np.packbits` is modelled byte for byte: booleans are packed
most-significant-bit first, the last byte zero-padded. -/

/-- One output byte of `np.packbits`: up to eight booleans, MSB first,
zero-padded at the end. -/
def byte_of (bs : List Bool) : Nat :=
  (List.range 8).foldl (fun acc i => 2 * acc + (if bs.getD i false then 1 else 0)) 0

/-- Model of `np.packbits` on a flat boolean array: groups of eight booleans become
one byte, MSB first, the final group zero-padded. -/
def packbits (l : List Bool) : List Nat :=
  if h : l = [] then []
  else byte_of (l.take 8) :: packbits (l.drop 8)
termination_by l.length
decreasing_by
  simp only [List.length_drop]
  have hpos : 0 < l.length := List.length_pos.mpr h
  omega

/-- Model of `utils.dhash`: `width = int(np.sqrt(bits))`; a non-perfect-square `bits`
raises `ValueError("Number of bits must be a perfect square")`; otherwise the
row-adjacent comparisons `img[:, :-1] > img[:, 1:]` of the `(width+1, width)`
resize are flattened row-major and packed into bytes. -/
def dhash (resized : Nat → Nat → Nat → Nat) (bits : Nat) : Except String (List Nat) :=
  let width := Nat.sqrt bits
  if width ^ 2 ≠ bits then
    Except.error "Number of bits must be a perfect square"
  else
    let img := resized width
    let diff := List.flatten ((List.range width).map fun r =>
      (List.range width).map fun c => decide (img r (c + 1) < img r c))
    Except.ok (packbits diff)

/-! ## `ssim` (`utils.py`)

A preprocessed image (`_preprocess`: grayscale, bicubic resize to
`SSIM_SIZE`, normalised to `[0, 1]`) is a rational-valued array
`GrayArr`; `_preprocess` itself and the box-blur `_filter` are oracle
parameters, being PIL primitives. -/

/-- A preprocessed float image, indexed by row and column. -/
abbrev GrayArr : Type := Nat → Nat → ℚ

/-- The per-pixel SSIM map `S` of `utils.ssim` on two preprocessed arrays,
with the uniform filter `F` (`utils._filter`) as an oracle.  Mirrors the
source line for line (numpy's array arithmetic is pointwise):
Bessel-corrected windowed variances/covariance, stabilising constants
`C1 = K1 ** 2`, `C2 = K2 ** 2`, and `S = (A1 * A2) / (B1 * B2)`. -/
def ssim_map (F : GrayArr → GrayArr) (arr1 arr2 : GrayArr) : GrayArr :=
  let NP : ℚ := (WIN_SIZE : ℚ) ^ 2
  let cov_norm := NP / (NP - 1)
  let ux := F arr1
  let uy := F arr2
  let uxx := F (fun i j => arr1 i j * arr1 i j)
  let uyy := F (fun i j => arr2 i j * arr2 i j)
  let uxy := F (fun i j => arr1 i j * arr2 i j)
  let vx : GrayArr := fun i j => cov_norm * (uxx i j - ux i j * ux i j)
  let vy : GrayArr := fun i j => cov_norm * (uyy i j - uy i j * uy i j)
  let vxy : GrayArr := fun i j => cov_norm * (uxy i j - ux i j * uy i j)
  let C1 := K1 ^ 2
  let C2 := K2 ^ 2
  let A1 : GrayArr := fun i j => 2 * ux i j * uy i j + C1
  let A2 : GrayArr := fun i j => 2 * vxy i j + C2
  let B1 : GrayArr := fun i j => ux i j ^ 2 + uy i j ^ 2 + C1
  let B2 : GrayArr := fun i j => vx i j + vy i j + C2
  fun i j => A1 i j * A2 i j / (B1 i j * B2 i j)

/-- The tail of `utils.ssim`: the mean of the SSIM map `S` over the
`SSIM_SIZE` canvas with a `pad = (WIN_SIZE - 1) // 2` border cropped on
every side (`S[pad:-pad, pad:-pad].mean()`). -/
def ssim_core (F : GrayArr → GrayArr) (arr1 arr2 : GrayArr) : ℚ :=
  let S := ssim_map F arr1 arr2
  let pad := (WIN_SIZE - 1) / 2
  (∑ p ∈ Finset.Ico pad (SSIM_SIZE - pad) ×ˢ Finset.Ico pad (SSIM_SIZE - pad), S p.1 p.2) /
    (((SSIM_SIZE - 2 * pad) * (SSIM_SIZE - 2 * pad) : ℕ) : ℚ)

/-- Model of `utils.ssim` on two images: both are preprocessed identically by the
oracle `pre` (`utils._preprocess`) and fed to the arithmetic core. -/
def ssim {Img : Type} (pre : Img → GrayArr) (F : GrayArr → GrayArr)
    (img1 img2 : Img) : ℚ :=
  ssim_core F (pre img1) (pre img2)

/-! ## `load_img` (`rm_dup.py`) -/

/-- A decoded numpy array: its shape (all dimensions, channels included) and
its flat data. -/
structure NpArr where
  shape : List Nat
  data : List Nat

/-- Model of `np.prod` over a shape tuple (`np.prod(())` is `1`). -/
def np_prod (shape : List Nat) : Nat := shape.foldl (fun a d => a * d) 1

/-- Model of `rm_dup.load_img` over a decode oracle (`Image.open` + `np.array`; `none`
models the `OSError` path) and a hash oracle (`dhash` at `HASH_BITS` bits on
the decoded array): on success the record is
`(path, img_hash, np.prod(img.shape))`. -/
def load_img {π : Type} (decode : π → Option NpArr) (hashImg : NpArr → List Nat)
    (path : π) : Option (π × List Nat × Nat) :=
  match decode path with
  | none => none
  | some img => some (path, hashImg img, np_prod img.shape)

/-! ## `group_by_hash` (`rm_dup.py`)

Paths are a linear order (``pathlib.Path`` compares by its string), hashes
any decidable-equality type.  A record is `(path, img_hash, size)` exactly as
the tuples `load_img` yields. -/

/-- The dictionary `temp_dict` after the first loop of `group_by_hash`: for
each hash key, the `(size, path)` pairs of its records in input order. -/
def build_temp {α β : Type} [DecidableEq β] (info : List (α × β × Nat)) :
    β → List (Nat × α) :=
  info.foldl
    (fun d r => fun k => if r.2.1 = k then d k ++ [(r.2.2, r.1)] else d k)
    (fun _ => [])

/-- The comparison `list.sort(reverse=True)` sorts by on `(size, path)`
tuples: descending lexicographic order. -/
def tupGE {α : Type} [LinearOrder α] (x y : Nat × α) : Prop :=
  y.1 < x.1 ∨ (x.1 = y.1 ∧ y.2 ≤ x.2)

instance tupGE_decidable {α : Type} [LinearOrder α] : DecidableRel (@tupGE α _) :=
  fun x y => inferInstanceAs (Decidable (y.1 < x.1 ∨ (x.1 = y.1 ∧ y.2 ≤ x.2)))

/-- One bucket of `temp_dict` after `temp_dict[key].sort(reverse=True)`:
the `(size, path)` pairs in descending lexicographic order.  (Sorted
permutations with respect to this antisymmetric total order are unique, so
any sorting algorithm models `list.sort`.) -/
def sorted_bucket {α β : Type} [LinearOrder α] [DecidableEq β]
    (info : List (α × β × Nat)) (k : β) : List (Nat × α) :=
  List.insertionSort tupGE (build_temp info k)

/-- Model of `rm_dup.group_by_hash` as the per-key bucket contents: the sorted
`(size, path)` pairs mapped to their paths
(`list(map(lambda tup: tup[1], temp_dict[key]))`). -/
def group_by_hash {α β : Type} [LinearOrder α] [DecidableEq β]
    (info : List (α × β × Nat)) (k : β) : List α :=
  (sorted_bucket info k).map Prod.snd

/-! ## `get_dup` (`rm_dup.py`)

The similarity of two images on disk (`ssim(Image.open(first),
Image.open(second))`) is an oracle `sim` on paths; floats are rationals.
The duplicates dictionary is an insertion-ordered association list — faithful
to a Python `dict`, since a pair is only ever added under the guard that its
key is not yet present. -/

/-- Test `second in duplicates`: membership among the keys of the association
list. -/
def isKey {α : Type} [DecidableEq α] (dups : List (α × α)) (p : α) : Bool :=
  dups.any fun q => decide (q.1 = p)

/-- The inner loop of `get_dup` for a fixed anchor `first`: walk the later
paths, skip any already marked duplicate, otherwise compare and, above the
module-level threshold `SSIM_THRESH`, record `duplicates[second] = first`. -/
def dup_scan {α : Type} [DecidableEq α] (sim : α → α → ℚ) (first : α) :
    List α → List (α × α) → List (α × α)
  | [], dups => dups
  | second :: rest, dups =>
    if isKey dups second then dup_scan sim first rest dups
    else if SSIM_THRESH < sim first second then
      dup_scan sim first rest (dups ++ [(second, first)])
    else dup_scan sim first rest dups

/-- The outer loop of `get_dup`: each path in order serves as anchor unless
already marked duplicate. -/
def dup_loop {α : Type} [DecidableEq α] (sim : α → α → ℚ) :
    List α → List (α × α) → List (α × α)
  | [], dups => dups
  | first :: rest, dups =>
    if isKey dups first then dup_loop sim rest dups
    else dup_loop sim rest (dup_scan sim first rest dups)

/-- Model of `rm_dup.get_dup`: the duplicate map built by the double loop, paired with
the reported comparison count `len(info) * (len(info) - 1) // 2`.  The
`ssim_thresh` parameter is carried but — exactly as in the source, whose
comparison reads the module-level constant — never read. -/
def get_dup {α : Type} [DecidableEq α] (sim : α → α → ℚ) (info : List α)
    (ssim_thresh : ℚ) : List (α × α) × Nat :=
  (dup_loop sim info [], info.length * (info.length - 1) / 2)

/-- Instrumented inner loop: additionally returns the list of `(first,
second)` pairs on which `ssim` is actually evaluated (the comparison happens
whenever `second` is not already a duplicate, whatever its outcome). -/
def dup_scanT {α : Type} [DecidableEq α] (sim : α → α → ℚ) (first : α) :
    List α → List (α × α) → List (α × α) × List (α × α)
  | [], dups => (dups, [])
  | second :: rest, dups =>
    if isKey dups second then dup_scanT sim first rest dups
    else if SSIM_THRESH < sim first second then
      ((dup_scanT sim first rest (dups ++ [(second, first)])).1,
        (first, second) :: (dup_scanT sim first rest (dups ++ [(second, first)])).2)
    else
      ((dup_scanT sim first rest dups).1,
        (first, second) :: (dup_scanT sim first rest dups).2)

/-- Instrumented outer loop: the duplicate map together with every similarity
comparison performed, in order. -/
def dup_loopT {α : Type} [DecidableEq α] (sim : α → α → ℚ) :
    List α → List (α × α) → List (α × α) × List (α × α)
  | [], dups => (dups, [])
  | first :: rest, dups =>
    if isKey dups first then dup_loopT sim rest dups
    else
      ((dup_loopT sim rest (dup_scanT sim first rest dups).1).1,
        (dup_scanT sim first rest dups).2 ++
          (dup_loopT sim rest (dup_scanT sim first rest dups).1).2)

/-! ## `main` (`rm_dup.py`) -/

/-- Clamp `total_proc = min(max(args.processes, 0), PROC_LIMIT)`. -/
def total_proc (processes : Int) : Int := min (max processes 0) PROC_LIMIT

/-- Model of `multiprocessing.Pool(processes)` of the Python standard library (an
external collaborator): its constructor raises
`ValueError("Number of processes must be at least 1")` whenever
`processes < 1`, and otherwise yields a pool of that size. -/
def Pool_new (processes : Int) : Except String Nat :=
  if processes < 1 then Except.error "Number of processes must be at least 1"
  else Except.ok processes.toNat

/-- Phase 2 of `main`: `get_dup` is mapped over every bucket of
`info_dict.values()`; the fragments are merged into `to_delete` and the
comparison counts accumulated into the progress bar.  The second component
logs, in order, every bucket `get_dup` is invoked on. -/
def run_phase2 {α : Type} [DecidableEq α] (sim : α → α → ℚ)
    (buckets : List (List α)) : (List (α × α) × Nat) × List (List α) :=
  buckets.foldl
    (fun acc b =>
      let r := get_dup sim b SSIM_THRESH
      ((acc.1.1 ++ r.1, acc.1.2 + r.2), acc.2 ++ [b]))
    (([], 0), [])

/-- The deletion loop of `main`, `for dup_path in to_delete:
dup_path.unlink()`, over a filesystem oracle: no exception handling, so the
first failing `unlink` propagates and ends the loop.  Returns the paths
whose removal was attempted and the error, if one occurred. -/
def unlink_all {π : Type} (unlink : π → Except String Unit) :
    List π → List π × Option String
  | [] => ([], none)
  | p :: rest =>
    match unlink p with
    | Except.error e => ([p], some e)
    | Except.ok _ =>
      let r := unlink_all unlink rest
      (p :: r.1, r.2)

/-! ## Claim theorems -/

/-- Claim C10. The result of `get_dup` is independent of its `ssim_thresh`
parameter: for every bucket and any two threshold values, the duplicate maps
and the reported comparison counts coincide, because the comparison reads the
module-level `SSIM_THRESH` constant and never the parameter. -/
theorem get_dup_ignores_thresh_param {α : Type} [DecidableEq α]
    (sim : α → α → ℚ) (info : List α) (t1 t2 : ℚ) :
    get_dup sim info t1 = get_dup sim info t2 := rfl

/-- Claim C5. `main` clamps the caller-supplied worker count into `[0, 8]`;
but a clamped value of `0` is handed to `multiprocessing.Pool`, whose
constructor rejects any count below `1`, so the run fails with `ValueError`
instead of degrading to sequential execution as the spec requires. -/
theorem total_proc_clamp_pool_error :
    (∀ p : Int, 0 ≤ total_proc p ∧ total_proc p ≤ 8) ∧
    total_proc 0 = 0 ∧
    Pool_new (total_proc 0) = Except.error "Number of processes must be at least 1" := by
  refine ⟨fun p => ⟨?_, ?_⟩, rfl, rfl⟩
  · exact le_min (le_max_right p 0) (by norm_num [PROC_LIMIT])
  · exact le_trans (min_le_right _ _) (by norm_num [PROC_LIMIT])

/-- A filesystem on which removing path `0` fails (say, for permissions)
while every other removal succeeds. -/
def unlink_fail0 : Nat → Except String Unit :=
  fun p => if p = 0 then Except.error "Permission denied" else Except.ok ()

/-- Claim C6. The deletion loop of `main` has no per-file recovery: on the
duplicate list `[0, 1]`, where removing `0` fails, the error propagates at
once — only path `0` is ever attempted and path `1` is never reached,
contradicting the claim that every duplicate is attempted independently. -/
theorem unlink_loop_aborts :
    unlink_all unlink_fail0 [0, 1] = ([0], some "Permission denied") ∧
    1 ∉ (unlink_all unlink_fail0 [0, 1]).1 := by
  constructor <;> decide

/-- A decode oracle returning a three-dimensional (colour) array of shape
`(2, 3, 4)`: height `2`, width `3`, `4` channels. -/
def decode_rgb : Nat → Option NpArr := fun _ => some ⟨[2, 3, 4], []⟩

/-- A trivial hash oracle. -/
def hash0 : NpArr → List Nat := fun _ => []

/-- Claim C4, counterexample. For the decoded colour image of shape
`(2, 3, 4)`, `load_img` records `np.prod(img.shape) = 24` pixels, not the
product `2 * 3 = 6` of the spatial dimensions alone: the channel count is
not ignored. -/
theorem load_img_pixels_counterexample :
    load_img decode_rgb hash0 0 = some (0, [], 24) ∧ (24 : Nat) ≠ 2 * 3 := by
  constructor
  · rfl
  · decide

/-- Claim C4, amended. For every successfully decoded image, `load_img`
records a pixel count equal to the product of *all* dimensions of the
decoded array's shape — `h * w` for a two-dimensional grayscale array but
`h * w * c` for an `h × w × c` colour array, so the channel count does enter
the product. -/
theorem load_img_pixel_count {π : Type} (decode : π → Option NpArr)
    (hashImg : NpArr → List Nat) (path : π) (img : NpArr)
    (hdec : decode path = some img) :
    load_img decode hashImg path = some (path, hashImg img, np_prod img.shape) ∧
    (∀ h w c : Nat, img.shape = [h, w, c] → np_prod img.shape = h * w * c) ∧
    (∀ h w : Nat, img.shape = [h, w] → np_prod img.shape = h * w) := by
  refine ⟨by simp [load_img, hdec], ?_, ?_⟩
  · intro h w c hs
    simp [np_prod, hs]
  · intro h w hs
    simp [np_prod, hs]

/-- Witness for C4's amended theorem at the concrete decode oracle
`decode_rgb`. -/
theorem load_img_pixel_count_witness :
    load_img decode_rgb hash0 0 = some (0, hash0 ⟨[2, 3, 4], []⟩, np_prod [2, 3, 4]) ∧
    (∀ h w c : Nat, ([2, 3, 4] : List Nat) = [h, w, c] → np_prod [2, 3, 4] = h * w * c) ∧
    (∀ h w : Nat, ([2, 3, 4] : List Nat) = [h, w] → np_prod [2, 3, 4] = h * w) :=
  load_img_pixel_count decode_rgb hash0 0 ⟨[2, 3, 4], []⟩ rfl

/-- Claim C2. On an ordered bucket `[A, B, C]` with `sim A B` strictly above
the threshold and the other two pairs at most the threshold, `get_dup`
returns exactly the map `{B ↦ A}` and reports `3` comparisons. -/
theorem get_dup_three_path {α : Type} [DecidableEq α] (sim : α → α → ℚ)
    (t : ℚ) (A B C : α) (hAB : A ≠ B) (hAC : A ≠ C) (hBC : B ≠ C)
    (sAB : SSIM_THRESH < sim A B) (sAC : sim A C ≤ SSIM_THRESH)
    (sBC : sim B C ≤ SSIM_THRESH) :
    get_dup sim [A, B, C] t = ([(B, A)], 3) := by
  have hAC' : ¬SSIM_THRESH < sim A C := not_lt.mpr sAC
  simp [get_dup, dup_loop, dup_scan, isKey, sAB, hAC', hBC]

/-- A concrete similarity oracle for the C2 witness: only the pair `(0, 1)`
is similar. -/
def simW : Nat → Nat → ℚ := fun i j => if i = 0 ∧ j = 1 then 1 else 0

/-- Witness for C2 at the concrete bucket `[0, 1, 2]`. -/
theorem get_dup_three_path_witness :
    get_dup simW [0, 1, 2] (1 / 2) = ([(1, 0)], 3) :=
  get_dup_three_path simW (1 / 2) 0 1 2 (by decide) (by decide) (by decide)
    (by norm_num [simW, SSIM_THRESH]) (by norm_num [simW, SSIM_THRESH])
    (by norm_num [simW, SSIM_THRESH])

/-! ### C1: bucket ordering in `group_by_hash` -/

instance tupGE_total {α : Type} [LinearOrder α] : IsTotal (Nat × α) tupGE :=
  ⟨fun x y => by
    rcases lt_trichotomy x.1 y.1 with h | h | h
    · exact Or.inr (Or.inl h)
    · rcases le_total y.2 x.2 with h2 | h2
      · exact Or.inl (Or.inr ⟨h, h2⟩)
      · exact Or.inr (Or.inr ⟨h.symm, h2⟩)
    · exact Or.inl (Or.inl h)⟩

instance tupGE_trans {α : Type} [LinearOrder α] : IsTrans (Nat × α) tupGE :=
  ⟨fun x y z hxy hyz => by
    rcases hxy with h1 | ⟨e1, l1⟩
    · rcases hyz with h2 | ⟨e2, _⟩
      · exact Or.inl (h2.trans h1)
      · exact Or.inl (e2 ▸ h1)
    · rcases hyz with h2 | ⟨e2, l2⟩
      · exact Or.inl (e1 ▸ h2)
      · exact Or.inr ⟨e1.trans e2, l2.trans l1⟩⟩

/-- The first loop of `group_by_hash` appends each record's `(size, path)`
pair to its hash's list, so a key's list holds exactly the pairs of its
records, in input order. -/
theorem build_temp_eq {α β : Type} [DecidableEq β] (info : List (α × β × Nat))
    (k : β) :
    build_temp info k
      = (info.filter fun r => decide (r.2.1 = k)).map fun r => (r.2.2, r.1) := by
  suffices h : ∀ (l : List (α × β × Nat)) (d : β → List (Nat × α)),
      (l.foldl (fun d r => fun k' => if r.2.1 = k' then d k' ++ [(r.2.2, r.1)] else d k') d) k
        = d k ++ (l.filter fun r => decide (r.2.1 = k)).map fun r => (r.2.2, r.1) by
    simpa using h info (fun _ => [])
  intro l
  induction l with
  | nil => simp
  | cons r rest ih =>
    intro d
    simp only [List.foldl_cons, List.filter_cons, ih]
    by_cases h : r.2.1 = k
    · simp [h]
    · simp [h]

/-- Claim C1, amended. `group_by_hash` orders every bucket by pixel count
descending and breaks pixel-count ties by path *descending* (the code sorts
the `(size, path)` tuples with `reverse=True`, which reverses the path
component of ties as well): each bucket's `(size, path)` sequence is sorted
by descending lexicographic order, is a permutation of exactly the records
carrying that hash, and the emitted bucket is its path projection. -/
theorem group_by_hash_bucket_order {α β : Type} [LinearOrder α] [DecidableEq β]
    (info : List (α × β × Nat)) (k : β) :
    List.Sorted tupGE (sorted_bucket info k) ∧
    (sorted_bucket info k).Perm
      ((info.filter fun r => decide (r.2.1 = k)).map fun r => (r.2.2, r.1)) ∧
    group_by_hash info k = (sorted_bucket info k).map Prod.snd := by
  refine ⟨List.sorted_insertionSort tupGE _, ?_, rfl⟩
  rw [← build_temp_eq info k]
  exact List.perm_insertionSort tupGE (build_temp info k)

/-- The claim's ordering: pixel count descending, ties broken by path
*ascending*. -/
def claimGE {α : Type} [LinearOrder α] (x y : Nat × α) : Prop :=
  y.1 < x.1 ∨ (x.1 = y.1 ∧ x.2 ≤ y.2)

instance claimGE_decidable {α : Type} [LinearOrder α] : DecidableRel (@claimGE α _) :=
  fun x y => inferInstanceAs (Decidable (y.1 < x.1 ∨ (x.1 = y.1 ∧ x.2 ≤ y.2)))

/-- Claim C1, counterexample. Two records with one hash and equal pixel counts
`10` at paths `1 < 2`: the bucket comes out `[2, 1]` — paths descending on
the tie — and its `(size, path)` sequence is *not* sorted by the claim's
`(−pixelCount, path ascending)` order, which would demand `[1, 2]`. -/
theorem group_by_hash_tie_break_counterexample :
    group_by_hash [((1 : ℕ), (0 : ℕ), 10), ((2 : ℕ), (0 : ℕ), 10)] 0 = [2, 1] ∧
    ¬List.Sorted claimGE
      (sorted_bucket [((1 : ℕ), (0 : ℕ), 10), ((2 : ℕ), (0 : ℕ), 10)] 0) := by
  constructor
  · rfl
  · intro hs
    have hb : sorted_bucket [((1 : ℕ), (0 : ℕ), 10), ((2 : ℕ), (0 : ℕ), 10)] 0
        = [(10, 2), (10, 1)] := rfl
    rw [hb] at hs
    have h := (List.pairwise_cons.mp hs).1 (10, 1) (by simp)
    rcases h with h | ⟨_, h⟩
    · exact absurd h (by decide)
    · exact absurd h (by decide)

/-! ### C7: fingerprint length and the perfect-square check in `dhash` -/

/-- Lemma: `np.packbits` emits one byte per eight booleans, the final partial group
included: the output length is `⌈n / 8⌉`. -/
theorem packbits_length (l : List Bool) : (packbits l).length = (l.length + 7) / 8 := by
  by_cases h : l = []
  · subst h
    rw [packbits]
    simp
  · rw [packbits, dif_neg h]
    have hpos : 0 < l.length := List.length_pos.mpr h
    have ihd := packbits_length (l.drop 8)
    simp only [List.length_cons, ihd, List.length_drop]
    omega
termination_by l.length
decreasing_by
  simp only [List.length_drop]
  have hpos : 0 < l.length := List.length_pos.mpr h
  omega

/-- Flattening equal-length rows multiplies the lengths. -/
theorem flatten_map_length {γ : Type} (f : Nat → List γ) (w n : Nat)
    (hw : ∀ r, (f r).length = w) :
    (List.flatten ((List.range n).map f)).length = n * w := by
  induction n with
  | zero => simp
  | succ m ih =>
    rw [List.range_succ, List.map_append, List.flatten_append]
    simp [ih, hw, Nat.succ_mul]

/-- Claim C7. For every perfect-square `bits`, `dhash` succeeds with a
fingerprint of exactly `⌈bits / 8⌉` bytes; for every other `bits` it fails
with the `InvalidConfiguration` error (`ValueError("Number of bits must be a
perfect square")`) and produces no fingerprint. -/
theorem dhash_fingerprint_length (resized : Nat → Nat → Nat → Nat) (bits : Nat) :
    ((∃ w, w * w = bits) →
      ∃ h, dhash resized bits = Except.ok h ∧ h.length = (bits + 7) / 8) ∧
    ((∀ w, w * w ≠ bits) →
      dhash resized bits = Except.error "Number of bits must be a perfect square") := by
  constructor
  · intro hsq
    have hroot : Nat.sqrt bits * Nat.sqrt bits = bits := (Nat.exists_mul_self bits).mp hsq
    have hcond : ¬Nat.sqrt bits ^ 2 ≠ bits := by
      rw [pow_two]
      exact not_not.mpr hroot
    rw [dhash, if_neg hcond]
    refine ⟨_, rfl, ?_⟩
    have hlen := flatten_map_length
      (fun r => (List.range (Nat.sqrt bits)).map fun c =>
        decide (resized (Nat.sqrt bits) r (c + 1) < resized (Nat.sqrt bits) r c))
      (Nat.sqrt bits) (Nat.sqrt bits) (fun r => by simp)
    rw [packbits_length, hlen, hroot]
  · intro hnsq
    have hcond : Nat.sqrt bits ^ 2 ≠ bits := by
      rw [pow_two]
      exact fun h => hnsq (Nat.sqrt bits) h
    rw [dhash, if_pos hcond]

/-- Witness for C7: at `bits = 16` the fingerprint has `2` bytes; at the
non-square `bits = 5` the call fails. -/
theorem dhash_fingerprint_length_witness :
    (∃ h, dhash (fun _ _ _ => 0) 16 = Except.ok h ∧ h.length = (16 + 7) / 8) ∧
    dhash (fun _ _ _ => 0) 5 = Except.error "Number of bits must be a perfect square" := by
  constructor
  · exact (dhash_fingerprint_length (fun _ _ _ => 0) 16).1 ⟨4, rfl⟩
  · refine (dhash_fingerprint_length (fun _ _ _ => 0) 5).2 ?_
    intro w h
    have hw : w ≤ 2 := by nlinarith
    interval_cases w <;> omega

/-! ### C9: the comparison budget and which buckets reach `get_dup` -/

/-- Lemma: `main`'s phase-2 dispatch invokes `get_dup` once for every bucket of
`info_dict.values()`, in order — there is no size filter. -/
theorem run_phase2_log {α : Type} [DecidableEq α] (sim : α → α → ℚ)
    (buckets : List (List α)) : (run_phase2 sim buckets).2 = buckets := by
  suffices h : ∀ (bs : List (List α)) (acc : (List (α × α) × Nat) × List (List α)),
      (bs.foldl
        (fun acc b =>
          let r := get_dup sim b SSIM_THRESH
          ((acc.1.1 ++ r.1, acc.1.2 + r.2), acc.2 ++ [b])) acc).2 = acc.2 ++ bs by
    simpa using h buckets (([], 0), [])
  intro bs
  induction bs with
  | nil => simp
  | cons b rest ih =>
    intro acc
    simp [ih]

/-- Claim C9, amended. For every bucket of size `n`, `get_dup` reports the
combinatorial budget `n * (n − 1) / 2`; for `n ≤ 1` the budget is `0` and
the pairwise scan performs no similarity comparison at all — but `get_dup`
itself *is* still invoked once per bucket by `main`'s phase-2 dispatch,
singletons included. -/
theorem comparison_budget_identity {α : Type} [DecidableEq α]
    (sim : α → α → ℚ) (t : ℚ) (bucket : List α) :
    (get_dup sim bucket t).2 = bucket.length * (bucket.length - 1) / 2 ∧
    (bucket.length ≤ 1 →
      (get_dup sim bucket t).2 = 0 ∧ (dup_loopT sim bucket []).2 = []) ∧
    (∀ buckets : List (List α), (run_phase2 sim buckets).2 = buckets) := by
  refine ⟨rfl, ?_, run_phase2_log sim⟩
  intro hlen
  match bucket, hlen with
  | [], _ => exact ⟨by simp [get_dup], rfl⟩
  | [x], _ =>
    refine ⟨by simp [get_dup], ?_⟩
    simp [dup_loopT, dup_scanT, isKey]

/-- Claim C9, counterexample. `main` invokes `get_dup` on a bucket of size
`1`: dispatching phase 2 over the single singleton bucket `[0]` logs that
very bucket as an argument of `get_dup`, so buckets of size `≤ 1` do enter
the deduplication algorithm. -/
theorem singleton_bucket_invoked_counterexample :
    (run_phase2 (fun _ _ => (0 : ℚ)) [[(0 : ℕ)]]).2 = [[0]] ∧
    ([(0 : ℕ)] : List ℕ).length ≤ 1 := by
  constructor
  · rfl
  · decide

/-! ### C3: the duplicate map is star-shaped -/

/-- The keys of the duplicate map: the paths flagged as duplicates. -/
def keysOf {α : Type} (d : List (α × α)) : List α := d.map Prod.fst

theorem isKey_iff {α : Type} [DecidableEq α] (d : List (α × α)) (p : α) :
    isKey d p = true ↔ p ∈ keysOf d := by
  simp [isKey, keysOf, List.any_eq_true]

/-- The inner scan only appends: it adds pairs whose keys are later paths of
the bucket and whose value is always the current anchor. -/
theorem dup_scan_shape {α : Type} [DecidableEq α] (sim : α → α → ℚ) (f : α)
    (rest : List α) : ∀ dups : List (α × α),
    ∃ ext, dup_scan sim f rest dups = dups ++ ext ∧
      (∀ k ∈ keysOf ext, k ∈ rest) ∧ (∀ p ∈ ext, p.2 = f) := by
  induction rest with
  | nil =>
    intro dups
    exact ⟨[], by simp [dup_scan], by simp [keysOf], by simp⟩
  | cons second rest ih =>
    intro dups
    rw [dup_scan]
    by_cases h1 : isKey dups second
    · rw [if_pos h1]
      obtain ⟨ext, he, hk, hv⟩ := ih dups
      exact ⟨ext, he, fun k hk' => List.mem_cons_of_mem _ (hk k hk'), hv⟩
    · rw [if_neg h1]
      by_cases h2 : SSIM_THRESH < sim f second
      · rw [if_pos h2]
        obtain ⟨ext, he, hk, hv⟩ := ih (dups ++ [(second, f)])
        refine ⟨(second, f) :: ext, ?_, ?_, ?_⟩
        · rw [he, List.append_assoc]
          rfl
        · intro k hk'
          simp only [keysOf, List.map_cons, List.mem_cons] at hk'
          rcases hk' with rfl | hk'
          · exact List.mem_cons_self _ _
          · exact List.mem_cons_of_mem _ (hk k hk')
        · intro p hp
          rcases List.mem_cons.mp hp with rfl | hp
          · rfl
          · exact hv p hp
      · rw [if_neg h2]
        obtain ⟨ext, he, hk, hv⟩ := ih dups
        exact ⟨ext, he, fun k hk' => List.mem_cons_of_mem _ (hk k hk'), hv⟩

/-- The inner scan preserves the star-shape invariant: no pair maps a path
to itself, and no recorded original is itself flagged as a duplicate. -/
theorem dup_scan_inv {α : Type} [DecidableEq α] (sim : α → α → ℚ) (f : α)
    (rest : List α) : ∀ dups : List (α × α),
    f ∉ rest → f ∉ keysOf dups →
    (∀ p ∈ dups, p.2 ∉ rest) →
    (∀ p ∈ dups, p.1 ≠ p.2) →
    (∀ p ∈ dups, p.2 ∉ keysOf dups) →
    (∀ p ∈ dup_scan sim f rest dups, p.1 ≠ p.2) ∧
    (∀ p ∈ dup_scan sim f rest dups, p.2 ∉ keysOf (dup_scan sim f rest dups)) := by
  induction rest with
  | nil =>
    intro dups _ _ _ h1 h2
    rw [dup_scan]
    exact ⟨h1, h2⟩
  | cons second rest ih =>
    intro dups hf1 hf2 hv h1 h2
    have hfs : f ≠ second := fun e => hf1 (e ▸ List.mem_cons_self _ _)
    have hfr : f ∉ rest := fun h => hf1 (List.mem_cons_of_mem _ h)
    rw [dup_scan]
    by_cases hk : isKey dups second
    · rw [if_pos hk]
      exact ih dups hfr hf2
        (fun p hp h => hv p hp (List.mem_cons_of_mem _ h)) h1 h2
    · rw [if_neg hk]
      by_cases hs : SSIM_THRESH < sim f second
      · rw [if_pos hs]
        have hsecv : second ∉ keysOf dups := fun h => hk ((isKey_iff dups second).mpr h)
        apply ih (dups ++ [(second, f)])
        · exact hfr
        · intro h
          simp only [keysOf, List.map_append, List.mem_append, List.map_cons,
            List.mem_singleton, List.map_nil, List.mem_cons, List.not_mem_nil,
            or_false] at h
          rcases h with h | h
          · exact hf2 h
          · exact hfs h
        · intro p hp
          rcases List.mem_append.mp hp with h | h
          · exact fun hm => hv p h (List.mem_cons_of_mem _ hm)
          · rcases List.mem_singleton.mp h with rfl
            exact hfr
        · intro p hp
          rcases List.mem_append.mp hp with h | h
          · exact h1 p h
          · rcases List.mem_singleton.mp h with rfl
            exact fun e => hfs e.symm
        · intro p hp
          rcases List.mem_append.mp hp with h | h
          · intro hmem
            simp only [keysOf, List.map_append, List.mem_append, List.map_cons,
              List.map_nil, List.mem_cons, List.not_mem_nil, or_false] at hmem
            rcases hmem with hm | hm
            · exact h2 p h hm
            · exact hv p h (hm ▸ List.mem_cons_self _ _)
          · rcases List.mem_singleton.mp h with rfl
            intro hmem
            simp only [keysOf, List.map_append, List.mem_append, List.map_cons,
              List.map_nil, List.mem_cons, List.not_mem_nil, or_false] at hmem
            rcases hmem with hm | hm
            · exact hf2 hm
            · exact hfs hm
      · rw [if_neg hs]
        exact ih dups hfr hf2
          (fun p hp h => hv p hp (List.mem_cons_of_mem _ h)) h1 h2

/-- Every key of the final map was a key already or is a path of the
remaining bucket. -/
theorem dup_loop_keys {α : Type} [DecidableEq α] (sim : α → α → ℚ)
    (info : List α) : ∀ dups : List (α × α), ∀ k ∈ keysOf (dup_loop sim info dups),
    k ∈ keysOf dups ∨ k ∈ info := by
  induction info with
  | nil =>
    intro dups k hk
    rw [dup_loop] at hk
    exact Or.inl hk
  | cons first rest ih =>
    intro dups k hk
    rw [dup_loop] at hk
    by_cases h : isKey dups first
    · rw [if_pos h] at hk
      rcases ih dups k hk with h' | h'
      · exact Or.inl h'
      · exact Or.inr (List.mem_cons_of_mem _ h')
    · rw [if_neg h] at hk
      rcases ih _ k hk with h' | h'
      · obtain ⟨ext, he, hkx, _⟩ := dup_scan_shape sim first rest dups
        rw [he] at h'
        simp only [keysOf, List.map_append, List.mem_append] at h'
        rcases h' with h' | h'
        · exact Or.inl h'
        · exact Or.inr (List.mem_cons_of_mem _ (hkx k h'))
      · exact Or.inr (List.mem_cons_of_mem _ h')

/-- The outer loop preserves the star-shape invariant. -/
theorem dup_loop_inv {α : Type} [DecidableEq α] (sim : α → α → ℚ)
    (info : List α) : ∀ dups : List (α × α), info.Nodup →
    (∀ p ∈ dups, p.2 ∉ info) →
    (∀ p ∈ dups, p.1 ≠ p.2) →
    (∀ p ∈ dups, p.2 ∉ keysOf dups) →
    (∀ p ∈ dup_loop sim info dups, p.1 ≠ p.2) ∧
    (∀ p ∈ dup_loop sim info dups, p.2 ∉ keysOf (dup_loop sim info dups)) := by
  induction info with
  | nil =>
    intro dups _ _ h1 h2
    rw [dup_loop]
    exact ⟨h1, h2⟩
  | cons first rest ih =>
    intro dups hnd hv h1 h2
    rw [dup_loop]
    by_cases hk : isKey dups first
    · rw [if_pos hk]
      exact ih dups (List.nodup_cons.mp hnd).2
        (fun p hp h => hv p hp (List.mem_cons_of_mem _ h)) h1 h2
    · rw [if_neg hk]
      have hf2 : first ∉ keysOf dups := fun h => hk ((isKey_iff dups first).mpr h)
      have hfr : first ∉ rest := (List.nodup_cons.mp hnd).1
      have hscan := dup_scan_inv sim first rest dups hfr hf2
        (fun p hp h => hv p hp (List.mem_cons_of_mem _ h)) h1 h2
      obtain ⟨ext, he, hkx, hvx⟩ := dup_scan_shape sim first rest dups
      apply ih (dup_scan sim first rest dups) (List.nodup_cons.mp hnd).2
      · intro p hp
        rw [he] at hp
        rcases List.mem_append.mp hp with h | h
        · exact fun hm => hv p h (List.mem_cons_of_mem _ hm)
        · rw [hvx p h]
          exact hfr
      · exact hscan.1
      · exact hscan.2

/-- The instrumented inner scan computes the same duplicate map. -/
theorem dup_scanT_fst {α : Type} [DecidableEq α] (sim : α → α → ℚ) (f : α)
    (rest : List α) : ∀ dups : List (α × α),
    (dup_scanT sim f rest dups).1 = dup_scan sim f rest dups := by
  induction rest with
  | nil =>
    intro dups
    rw [dup_scanT, dup_scan]
  | cons second rest ih =>
    intro dups
    rw [dup_scanT, dup_scan]
    by_cases h1 : isKey dups second
    · rw [if_pos h1, if_pos h1, ih]
    · rw [if_neg h1, if_neg h1]
      by_cases h2 : SSIM_THRESH < sim f second
      · rw [if_pos h2, if_pos h2]
        exact ih _
      · rw [if_neg h2, if_neg h2]
        exact ih _

/-- Every comparison of the inner scan has the current anchor on the left. -/
theorem dup_scanT_anchor {α : Type} [DecidableEq α] (sim : α → α → ℚ) (f : α)
    (rest : List α) : ∀ dups : List (α × α),
    ∀ c ∈ (dup_scanT sim f rest dups).2, c.1 = f := by
  induction rest with
  | nil =>
    intro dups c hc
    rw [dup_scanT] at hc
    exact absurd hc (List.not_mem_nil c)
  | cons second rest ih =>
    intro dups c hc
    rw [dup_scanT] at hc
    by_cases h1 : isKey dups second
    · rw [if_pos h1] at hc
      exact ih dups c hc
    · rw [if_neg h1] at hc
      by_cases h2 : SSIM_THRESH < sim f second
      · rw [if_pos h2] at hc
        rcases List.mem_cons.mp hc with rfl | hc
        · rfl
        · exact ih _ c hc
      · rw [if_neg h2] at hc
        rcases List.mem_cons.mp hc with rfl | hc
        · rfl
        · exact ih _ c hc

/-- The instrumented outer loop computes the same duplicate map. -/
theorem dup_loopT_fst {α : Type} [DecidableEq α] (sim : α → α → ℚ)
    (info : List α) : ∀ dups : List (α × α),
    (dup_loopT sim info dups).1 = dup_loop sim info dups := by
  induction info with
  | nil =>
    intro dups
    rw [dup_loopT, dup_loop]
  | cons first rest ih =>
    intro dups
    rw [dup_loopT, dup_loop]
    by_cases h : isKey dups first
    · rw [if_pos h, if_pos h, ih]
    · rw [if_neg h, if_neg h]
      simp only [dup_scanT_fst]
      exact ih _

/-- For a duplicate-free bucket, no path used as a comparison anchor is ever
a key of the final duplicate map: once flagged, a path never anchors again. -/
theorem dup_loopT_anchors {α : Type} [DecidableEq α] (sim : α → α → ℚ)
    (info : List α) : ∀ dups : List (α × α), info.Nodup →
    ∀ c ∈ (dup_loopT sim info dups).2, c.1 ∉ keysOf (dup_loop sim info dups) := by
  induction info with
  | nil =>
    intro dups _ c hc
    rw [dup_loopT] at hc
    exact absurd hc (List.not_mem_nil c)
  | cons first rest ih =>
    intro dups hnd c hc
    rw [dup_loopT] at hc
    rw [dup_loop]
    by_cases hk : isKey dups first
    · rw [if_pos hk] at hc
      rw [if_pos hk]
      exact ih dups (List.nodup_cons.mp hnd).2 c hc
    · rw [if_neg hk] at hc
      rw [if_neg hk]
      have hf2 : first ∉ keysOf dups := fun h => hk ((isKey_iff dups first).mpr h)
      have hfr : first ∉ rest := (List.nodup_cons.mp hnd).1
      rcases List.mem_append.mp hc with h | h
      · rw [dup_scanT_anchor sim first rest dups c h]
        intro hmem
        rcases dup_loop_keys sim rest (dup_scan sim first rest dups) first hmem
          with h' | h'
        · obtain ⟨ext, he, hkx, _⟩ := dup_scan_shape sim first rest dups
          rw [he] at h'
          simp only [keysOf, List.map_append, List.mem_append] at h'
          rcases h' with h' | h'
          · exact hf2 h'
          · exact hfr (hkx first h')
        · exact hfr h'
      · rw [dup_scanT_fst] at h
        exact ih (dup_scan sim first rest dups) (List.nodup_cons.mp hnd).2 c h

/-- Claim C3. For every bucket of distinct paths, the duplicate-map fragment
returned by `get_dup` is star-shaped: no path maps to itself, no recorded
original (value) is also flagged as a duplicate (key), and no path ever used
as a comparison anchor ends up a key — so once a path becomes a key it is
never subsequently used as an anchor. -/
theorem get_dup_star_shaped {α : Type} [DecidableEq α] (sim : α → α → ℚ)
    (t : ℚ) (info : List α) (hnd : info.Nodup) :
    (∀ p ∈ (get_dup sim info t).1, p.1 ≠ p.2) ∧
    (∀ p ∈ (get_dup sim info t).1, p.2 ∉ keysOf (get_dup sim info t).1) ∧
    (∀ c ∈ (dup_loopT sim info []).2, c.1 ∉ keysOf (get_dup sim info t).1) := by
  have hinv := dup_loop_inv sim info [] hnd (by simp) (by simp) (by simp)
  exact ⟨hinv.1, hinv.2, dup_loopT_anchors sim info [] hnd⟩

/-- Witness for C3 at the concrete bucket `[0, 1, 2]` with the oracle
`simW`. -/
theorem get_dup_star_shaped_witness :
    (∀ p ∈ (get_dup simW [0, 1, 2] (9 / 10)).1, p.1 ≠ p.2) ∧
    (∀ p ∈ (get_dup simW [0, 1, 2] (9 / 10)).1,
      p.2 ∉ keysOf (get_dup simW [0, 1, 2] (9 / 10)).1) ∧
    (∀ c ∈ (dup_loopT simW [0, 1, 2] []).2,
      c.1 ∉ keysOf (get_dup simW [0, 1, 2] (9 / 10)).1) :=
  get_dup_star_shaped simW (9 / 10) [0, 1, 2] (by decide)

/-! ### C8: symmetry and self-similarity of the SSIM scorer

The single analytic fact about the external box blur that the proofs need is
the windowed second-moment inequality `F(x·x) ≥ (F x)²` — true of any
averaging filter by Cauchy–Schwarz — which makes every per-pixel denominator
strictly positive when both inputs are the same array. -/

/-- The per-pixel SSIM map is symmetric in its two arrays. -/
theorem ssim_map_symm (F : GrayArr → GrayArr) (x y : GrayArr) :
    ssim_map F x y = ssim_map F y x := by
  funext i j
  simp only [ssim_map]
  have hxy : (fun i j => x i j * y i j) = fun i j => y i j * x i j := by
    funext u v
    exact mul_comm _ _
  rw [hxy]
  ring

/-- On one and the same array, every per-pixel SSIM value is exactly `1`,
given the second-moment inequality for the filter on that array. -/
theorem ssim_map_self (F : GrayArr → GrayArr) (x : GrayArr)
    (hx : ∀ i j, F x i j ^ 2 ≤ F (fun u v => x u v * x u v) i j) :
    ∀ i j : ℕ, ssim_map F x x i j = 1 := by
  intro i j
  simp only [ssim_map]
  set u := F x i j with hu
  set m := F (fun u v => x u v * x u v) i j with hm
  set cn : ℚ := (WIN_SIZE : ℚ) ^ 2 / ((WIN_SIZE : ℚ) ^ 2 - 1) with hcn
  have hum : u ^ 2 ≤ m := hx i j
  have hcnpos : (0 : ℚ) < cn := by
    rw [hcn]
    norm_num [WIN_SIZE]
  have hA1 : (0 : ℚ) < 2 * u * u + K1 ^ 2 := by
    have h1 : (0 : ℚ) ≤ u * u := mul_self_nonneg u
    have h2 : (0 : ℚ) < K1 ^ 2 := by norm_num [K1]
    nlinarith
  have hA2 : (0 : ℚ) < 2 * (cn * (m - u * u)) + K2 ^ 2 := by
    have h1 : (0 : ℚ) ≤ m - u * u := by nlinarith [hum, sq u]
    have h2 : (0 : ℚ) ≤ cn * (m - u * u) := mul_nonneg hcnpos.le h1
    have h3 : (0 : ℚ) < K2 ^ 2 := by norm_num [K2]
    nlinarith
  rw [show u ^ 2 + u ^ 2 + K1 ^ 2 = 2 * u * u + K1 ^ 2 from by ring,
    show cn * (m - u * u) + cn * (m - u * u) + K2 ^ 2
      = 2 * (cn * (m - u * u)) + K2 ^ 2 from by ring]
  exact div_self (ne_of_gt (mul_pos hA1 hA2))

/-- The cropped mean of an all-ones SSIM map is `1`. -/
theorem ssim_core_self (F : GrayArr → GrayArr) (x : GrayArr)
    (hx : ∀ i j, F x i j ^ 2 ≤ F (fun u v => x u v * x u v) i j) :
    ssim_core F x x = 1 := by
  simp only [ssim_core, ssim_map_self F x hx]
  rw [Finset.sum_const]
  norm_num [Finset.card_product, Nat.card_Ico, SSIM_SIZE, WIN_SIZE]

/-- Claim C8. The similarity scorer is symmetric — `ssim A B = ssim B A` for
all images, exactly, in exact arithmetic — and on any image compared with
itself the score is exactly `1`, provided the box filter satisfies the
second-moment inequality `F(x·x) ≥ (F x)²` that a true windowed mean obeys. -/
theorem ssim_symm_self {Img : Type} (pre : Img → GrayArr) (F : GrayArr → GrayArr)
    (hF : ∀ x : GrayArr, ∀ i j, F x i j ^ 2 ≤ F (fun u v => x u v * x u v) i j)
    (a b : Img) :
    ssim pre F a b = ssim pre F b a ∧ ssim pre F a a = 1 := by
  constructor
  · simp only [ssim, ssim_core]
    rw [ssim_map_symm]
  · exact ssim_core_self F (pre a) (hF (pre a))

/-- A two-image preprocessing oracle for the C8 witness. -/
def preW : Bool → GrayArr := fun b => fun i j => if b then (i : ℚ) else (j : ℚ)

/-- Witness for C8 with the identity filter (which meets the second-moment
inequality with equality) at two concrete distinct images. -/
theorem ssim_symm_self_witness :
    ssim preW id true false = ssim preW id false true ∧ ssim preW id true true = 1 :=
  ssim_symm_self preW id (fun x i j => le_of_eq (pow_two (x i j))) true false

end Imgtools
